import Mathlib

/-!
Verification of the Snowflake table-to-CSV exporter scripts
(`app.py` and `snowflake_table_to_csv_data_exporter.py`).

The development shallowly embeds the date arithmetic of Python's
`datetime` module (as used by the scripts), the interval-planning loop,
the CSV serialization performed by `csv.writer(..., delimiter="|",
quotechar=chr(34), quoting=csv.QUOTE_ALL)`, the thread-pool fetch
coordinator `parallel_fetch`, the artifact naming, and the ZIP bundling
block, and proves the specified properties about them.
-/

namespace SnowflakeExport

/-- A calendar date, the value content of a Python `datetime.date` or of a
midnight `datetime.datetime` as produced by `datetime.combine(d, time.min)`
in `app.py`. -/
structure Date where
  year : Nat
  month : Nat
  day : Nat
deriving DecidableEq

/-- Python's Gregorian leap-year rule (`calendar.isleap`), which underlies
all `datetime` day arithmetic used by the scripts. -/
def isLeapYear (y : Nat) : Bool :=
  (y % 4 == 0 && y % 100 != 0) || y % 400 == 0

/-- Number of days in month `m` of year `y` (Python `calendar.monthrange`). -/
def daysInMonth (y m : Nat) : Nat :=
  if m = 2 then (if isLeapYear y then 29 else 28)
  else if m = 4 ∨ m = 6 ∨ m = 9 ∨ m = 11 then 30
  else 31

/-- The dates representable by Python's `datetime.date`. -/
def Date.Valid (d : Date) : Prop :=
  1 ≤ d.year ∧ 1 ≤ d.month ∧ d.month ≤ 12 ∧ 1 ≤ d.day ∧
    d.day ≤ daysInMonth d.year d.month

instance (d : Date) : Decidable d.Valid := by
  unfold Date.Valid; infer_instance

/-- Python `date`/`datetime` comparison: lexicographic on (year, month, day). -/
def Date.lt (a b : Date) : Prop :=
  a.year < b.year ∨
    (a.year = b.year ∧
      (a.month < b.month ∨ (a.month = b.month ∧ a.day < b.day)))

instance (a b : Date) : Decidable (Date.lt a b) := by
  unfold Date.lt; infer_instance

/-- Python `a <= b` on dates. -/
def Date.le (a b : Date) : Prop := Date.lt a b ∨ a = b

instance (a b : Date) : Decidable (Date.le a b) := by
  unfold Date.le; infer_instance

/-- Number of leap years `k` with `1 ≤ k ≤ y`. -/
def leapCount (y : Nat) : Nat := y / 4 - y / 100 + y / 400

/-- Total days in months `1 .. m` of year `y`. -/
def daysUpTo (y : Nat) : Nat → Nat
  | 0 => 0
  | m + 1 => daysUpTo y m + daysInMonth y (m + 1)

/-- Python `date.toordinal`: proleptic Gregorian ordinal, with
`0001-01-01` mapped to `1`.  `timedelta(days = n)` addition and date
comparison coincide with `+ n` and `<` on this ordinal. -/
def toOrdinal (d : Date) : Nat :=
  365 * (d.year - 1) + leapCount (d.year - 1) + daysUpTo d.year (d.month - 1) + d.day

-- Helper: `daysInMonth` depends on the year only through its leap bit.
def monthLen (leap : Bool) (m : Nat) : Nat :=
  if m = 2 then (if leap then 29 else 28)
  else if m = 4 ∨ m = 6 ∨ m = 9 ∨ m = 11 then 30
  else 31

theorem daysInMonth_eq_monthLen (y m : Nat) :
    daysInMonth y m = monthLen (isLeapYear y) m := rfl

def daysUpToL (leap : Bool) : Nat → Nat
  | 0 => 0
  | m + 1 => daysUpToL leap m + monthLen leap (m + 1)

theorem daysUpTo_eq_daysUpToL (y : Nat) :
    ∀ m, daysUpTo y m = daysUpToL (isLeapYear y) m := by
  intro m
  induction m with
  | zero => rfl
  | succ m ih =>
    show daysUpTo y m + daysInMonth y (m + 1) = _
    rw [ih, daysInMonth_eq_monthLen]
    rfl

theorem daysInMonth_ge_28 (y m : Nat) : 28 ≤ daysInMonth y m := by
  unfold daysInMonth
  split
  · split <;> omega
  · split <;> omega

theorem daysInMonth_le_31 (y m : Nat) : daysInMonth y m ≤ 31 := by
  unfold daysInMonth
  split
  · split <;> omega
  · split <;> omega

theorem daysUpTo_succ (y m : Nat) :
    daysUpTo y (m + 1) = daysUpTo y m + daysInMonth y (m + 1) := rfl

theorem daysUpTo_mono (y : Nat) {m m' : Nat} (h : m ≤ m') :
    daysUpTo y m ≤ daysUpTo y m' := by
  induction m' with
  | zero =>
    have : m = 0 := by omega
    subst this; exact Nat.le_refl _
  | succ k ih =>
    rcases Nat.lt_or_ge m (k + 1) with hlt | hge
    · have := ih (by omega)
      have hstep : daysUpTo y k ≤ daysUpTo y (k + 1) := by
        rw [daysUpTo_succ]; omega
      omega
    · have : m = k + 1 := by omega
      subst this; exact Nat.le_refl _

theorem daysUpTo_12 (y : Nat) :
    daysUpTo y 12 = 365 + (if isLeapYear y then 1 else 0) := by
  rw [daysUpTo_eq_daysUpToL]
  cases h : isLeapYear y <;> simp [h] <;> decide

theorem daysUpTo_11 (y : Nat) :
    daysUpTo y 11 = 334 + (if isLeapYear y then 1 else 0) := by
  rw [daysUpTo_eq_daysUpToL]
  cases h : isLeapYear y <;> simp [h] <;> decide

theorem leapCount_succ (n : Nat) :
    leapCount (n + 1) = leapCount n + (if isLeapYear (n + 1) then 1 else 0) := by
  unfold leapCount isLeapYear
  have h4 : (n + 1) / 4 = n / 4 + if 4 ∣ n + 1 then 1 else 0 := Nat.succ_div n 4
  have h100 : (n + 1) / 100 = n / 100 + if 100 ∣ n + 1 then 1 else 0 := Nat.succ_div n 100
  have h400 : (n + 1) / 400 = n / 400 + if 400 ∣ n + 1 then 1 else 0 := Nat.succ_div n 400
  have d1 : n / 100 ≤ n / 4 := Nat.div_le_div_left (by norm_num) (by norm_num)
  have d2 : n / 400 ≤ n / 100 := Nat.div_le_div_left (by norm_num) (by norm_num)
  rw [h4, h100, h400]
  by_cases c4 : 4 ∣ n + 1 <;> by_cases c100 : 100 ∣ n + 1 <;> by_cases c400 : 400 ∣ n + 1 <;>
    simp only [c4, c100, c400, if_true, if_false, Nat.dvd_iff_mod_eq_zero] at * <;>
    simp only [beq_iff_eq, bne_iff_ne, Bool.or_eq_true, Bool.and_eq_true,
      decide_eq_true_eq, ne_eq] <;>
    split <;> omega

theorem leapCount_mono {y y' : Nat} (h : y ≤ y') : leapCount y ≤ leapCount y' := by
  induction y' with
  | zero => have : y = 0 := by omega
            subst this; exact Nat.le_refl _
  | succ k ih =>
    rcases Nat.lt_or_ge y (k + 1) with hlt | hge
    · have := ih (by omega)
      have := leapCount_succ k
      split at this <;> omega
    · have : y = k + 1 := by omega
      subst this; exact Nat.le_refl _

/-- The calendar successor of a date: the value of
`d + datetime.timedelta(days = 1)` for a valid `d`. -/
def nextDay (d : Date) : Date :=
  if d.day < daysInMonth d.year d.month then ⟨d.year, d.month, d.day + 1⟩
  else if d.month < 12 then ⟨d.year, d.month + 1, 1⟩
  else ⟨d.year + 1, 1, 1⟩

/-- The calendar predecessor of a date: the value of
`d - datetime.timedelta(days = 1)` for a valid `d`. -/
def prevDay (d : Date) : Date :=
  if 1 < d.day then ⟨d.year, d.month, d.day - 1⟩
  else if 1 < d.month then ⟨d.year, d.month - 1, daysInMonth d.year (d.month - 1)⟩
  else ⟨d.year - 1, 12, 31⟩

/-- `d + datetime.timedelta(days = n)` for a valid `d`. -/
def addDays : Nat → Date → Date
  | 0, d => d
  | n + 1, d => addDays n (nextDay d)

/-- `d - datetime.timedelta(days = n)` for a valid `d`. -/
def subDays : Nat → Date → Date
  | 0, d => d
  | n + 1, d => subDays n (prevDay d)

theorem nextDay_valid (d : Date) (h : d.Valid) : (nextDay d).Valid := by
  obtain ⟨hy, hm1, hm12, hd1, hdlen⟩ := h
  have h28a := daysInMonth_ge_28 d.year (d.month + 1)
  have h28b := daysInMonth_ge_28 (d.year + 1) 1
  unfold nextDay
  split
  · simp only [Date.Valid]; omega
  · split <;> simp only [Date.Valid] <;> omega

theorem toOrdinal_nextDay (d : Date) (h : d.Valid) :
    toOrdinal (nextDay d) = toOrdinal d + 1 := by
  obtain ⟨hy, hm1, hm12, hd1, hdlen⟩ := h
  unfold nextDay
  split
  · simp only [toOrdinal]
    omega
  · rename_i hfull
    split
    · rename_i hmlt
      -- month rollover within the year
      have hday : d.day = daysInMonth d.year d.month := by omega
      obtain ⟨m', hm'⟩ : ∃ m', d.month = m' + 1 := ⟨d.month - 1, by omega⟩
      simp only [toOrdinal]
      have hsum : daysUpTo d.year (m' + 1) =
          daysUpTo d.year m' + daysInMonth d.year (m' + 1) := daysUpTo_succ _ _
      simp only [hm'] at hday ⊢
      simp only [Nat.add_sub_cancel]
      omega
    · rename_i hmge
      -- year rollover: d is December 31
      have hm : d.month = 12 := by omega
      have hlen : daysInMonth d.year 12 = 31 := rfl
      have hday : d.day = 31 := by
        rw [hm] at hdlen hfull; omega
      obtain ⟨y', hy'⟩ : ∃ y', d.year = y' + 1 := ⟨d.year - 1, by omega⟩
      have h11 := daysUpTo_11 (y' + 1)
      have hlc := leapCount_succ y'
      simp only [toOrdinal, hm, hday, hy', Nat.add_sub_cancel]
      norm_num [show ∀ z, daysUpTo z 0 = 0 from fun z => rfl]
      cases hb : isLeapYear (y' + 1) <;> simp only [hb] at h11 hlc <;>
        simp at h11 hlc <;> omega

theorem addDays_valid (n : Nat) (d : Date) (h : d.Valid) : (addDays n d).Valid := by
  induction n generalizing d with
  | zero => exact h
  | succ k ih => exact ih (nextDay d) (nextDay_valid d h)

theorem toOrdinal_addDays (n : Nat) (d : Date) (h : d.Valid) :
    toOrdinal (addDays n d) = toOrdinal d + n := by
  induction n generalizing d with
  | zero => rfl
  | succ k ih =>
    show toOrdinal (addDays k (nextDay d)) = _
    rw [ih (nextDay d) (nextDay_valid d h), toOrdinal_nextDay d h]
    omega

-- Lexicographic order agrees with ordinal order on valid dates.

theorem daysUpTo_day_le (d : Date) (h : d.Valid) :
    daysUpTo d.year (d.month - 1) + d.day ≤ daysUpTo d.year 12 := by
  obtain ⟨hy, hm1, hm12, hd1, hdlen⟩ := h
  obtain ⟨m', hm'⟩ : ∃ m', d.month = m' + 1 := ⟨d.month - 1, by omega⟩
  have hsum : daysUpTo d.year (m' + 1) =
      daysUpTo d.year m' + daysInMonth d.year (m' + 1) := daysUpTo_succ _ _
  have hmono : daysUpTo d.year (m' + 1) ≤ daysUpTo d.year 12 :=
    daysUpTo_mono _ (by omega)
  simp only [hm', Nat.add_sub_cancel]
  rw [hm'] at hdlen
  omega

theorem toOrdinal_le_year_bound (d : Date) (h : d.Valid) :
    toOrdinal d ≤ 365 * d.year + leapCount d.year := by
  have h1 := daysUpTo_day_le d h
  have h2 := daysUpTo_12 d.year
  obtain ⟨hy, _, _, _, _⟩ := h
  obtain ⟨y', hy'⟩ : ∃ y', d.year = y' + 1 := ⟨d.year - 1, by omega⟩
  have hlc := leapCount_succ y'
  simp only [toOrdinal, hy'] at *
  simp only [Nat.add_sub_cancel] at *
  split at h2 <;> split at hlc <;> simp_all <;> omega

theorem toOrdinal_ge_year_bound (d : Date) (h : d.Valid) :
    365 * (d.year - 1) + leapCount (d.year - 1) + 1 ≤ toOrdinal d := by
  obtain ⟨hy, hm1, hm12, hd1, hdlen⟩ := h
  simp only [toOrdinal]
  omega

theorem toOrdinal_lt_of_lt (a b : Date) (ha : a.Valid) (hb : b.Valid)
    (h : Date.lt a b) : toOrdinal a < toOrdinal b := by
  obtain ⟨hay, ham1, ham12, had1, hadlen⟩ := ha
  rcases h with hy | ⟨hy, hm | ⟨hm, hd⟩⟩
  · -- strictly earlier year
    have h1 : toOrdinal a ≤ 365 * a.year + leapCount a.year :=
      toOrdinal_le_year_bound a ⟨hay, ham1, ham12, had1, hadlen⟩
    have h2 : 365 * (b.year - 1) + leapCount (b.year - 1) + 1 ≤ toOrdinal b :=
      toOrdinal_ge_year_bound b hb
    have h3 : leapCount a.year ≤ leapCount (b.year - 1) := leapCount_mono (by omega)
    have h4 : 365 * a.year ≤ 365 * (b.year - 1) := by
      have : a.year ≤ b.year - 1 := by omega
      exact Nat.mul_le_mul_left _ this
    omega
  · -- same year, strictly earlier month
    obtain ⟨hby, hbm1, hbm12, hbd1, hbdlen⟩ := hb
    obtain ⟨m', hm'⟩ : ∃ m', a.month = m' + 1 := ⟨a.month - 1, by omega⟩
    have hsum : daysUpTo b.year (m' + 1) =
        daysUpTo b.year m' + daysInMonth b.year (m' + 1) := daysUpTo_succ _ _
    have hmono : daysUpTo b.year (m' + 1) ≤ daysUpTo b.year (b.month - 1) :=
      daysUpTo_mono _ (by omega)
    rw [hy] at hadlen
    rw [hm'] at hadlen
    simp only [toOrdinal, hy, hm', Nat.add_sub_cancel]
    omega
  · -- same year and month, strictly earlier day
    simp only [toOrdinal, hy, hm]
    omega

theorem Date.lt_trichotomy (a b : Date) : Date.lt a b ∨ a = b ∨ Date.lt b a := by
  obtain ⟨ay, am, ad⟩ := a
  obtain ⟨by_, bm, bd⟩ := b
  simp only [Date.lt, Date.mk.injEq]
  rcases Nat.lt_trichotomy ay by_ with h | h | h
  · exact Or.inl (Or.inl h)
  · rcases Nat.lt_trichotomy am bm with h2 | h2 | h2
    · exact Or.inl (Or.inr ⟨h, Or.inl h2⟩)
    · rcases Nat.lt_trichotomy ad bd with h3 | h3 | h3
      · exact Or.inl (Or.inr ⟨h, Or.inr ⟨h2, h3⟩⟩)
      · exact Or.inr (Or.inl ⟨h, h2, h3⟩)
      · exact Or.inr (Or.inr (Or.inr ⟨h.symm, Or.inr ⟨h2.symm, h3⟩⟩))
    · exact Or.inr (Or.inr (Or.inr ⟨h.symm, Or.inl h2⟩))
  · exact Or.inr (Or.inr (Or.inl h))

theorem lt_iff_toOrdinal (a b : Date) (ha : a.Valid) (hb : b.Valid) :
    Date.lt a b ↔ toOrdinal a < toOrdinal b := by
  constructor
  · exact toOrdinal_lt_of_lt a b ha hb
  · intro h
    rcases Date.lt_trichotomy a b with hlt | heq | hgt
    · exact hlt
    · subst heq; omega
    · have := toOrdinal_lt_of_lt b a hb ha hgt
      omega

theorem le_iff_toOrdinal (a b : Date) (ha : a.Valid) (hb : b.Valid) :
    Date.le a b ↔ toOrdinal a ≤ toOrdinal b := by
  unfold Date.le
  constructor
  · rintro (h | rfl)
    · exact Nat.le_of_lt ((lt_iff_toOrdinal a b ha hb).1 h)
    · exact Nat.le_refl _
  · intro h
    rcases Date.lt_trichotomy a b with hlt | heq | hgt
    · exact Or.inl hlt
    · exact Or.inr heq
    · have := toOrdinal_lt_of_lt b a hb ha hgt
      omega

theorem toOrdinal_inj (a b : Date) (ha : a.Valid) (hb : b.Valid)
    (h : toOrdinal a = toOrdinal b) : a = b := by
  rcases Date.lt_trichotomy a b with hlt | heq | hgt
  · have := toOrdinal_lt_of_lt a b ha hb hlt; omega
  · exact heq
  · have := toOrdinal_lt_of_lt b a hb ha hgt; omega

/-- `get_next_time_interval` from `app.py` (lines 82-89).  The Python
function implicitly returns `None` when `group_by` is not one of
`"Day"`, `"Month"`, `"Year"`. -/
def get_next_time_interval (current : Date) (group_by : String) : Option Date :=
  if group_by = "Day" then some (addDays 1 current)
  else if group_by = "Month" then
    -- next_month = current.replace(day=28) + timedelta(days=4)
    -- return next_month - timedelta(days=next_month.day - 1)
    let next_month := addDays 4 ⟨current.year, current.month, 28⟩
    some (subDays (next_month.day - 1) next_month)
  else if group_by = "Year" then
    -- current.replace(year=current.year + 1, month=1, day=1)
    some ⟨current.year + 1, 1, 1⟩
  else none

/-- First day of the month after `d`'s month. -/
def firstOfNextMonth (d : Date) : Date :=
  if d.month < 12 then ⟨d.year, d.month + 1, 1⟩ else ⟨d.year + 1, 1, 1⟩

theorem get_next_day_eq (d : Date) :
    get_next_time_interval d "Day" = some (nextDay d) := rfl

theorem get_next_year_eq (d : Date) :
    get_next_time_interval d "Year" = some ⟨d.year + 1, 1, 1⟩ := rfl

theorem addDays_four (d : Date) :
    addDays 4 d = nextDay (nextDay (nextDay (nextDay d))) := rfl

theorem subDays_zero (d : Date) : subDays 0 d = d := rfl

theorem subDays_one (d : Date) : subDays 1 d = prevDay d := rfl

theorem subDays_two (d : Date) : subDays 2 d = prevDay (prevDay d) := rfl

theorem subDays_three (d : Date) : subDays 3 d = prevDay (prevDay (prevDay d)) := rfl

theorem get_next_month_unfold (d : Date) :
    get_next_time_interval d "Month" =
      some (subDays ((addDays 4 ⟨d.year, d.month, 28⟩).day - 1)
        (addDays 4 ⟨d.year, d.month, 28⟩)) := rfl

theorem get_next_month_eq (d : Date) (h : d.Valid) :
    get_next_time_interval d "Month" = some (firstOfNextMonth d) := by
  obtain ⟨y, m, dd⟩ := d
  obtain ⟨hy, hm1, hm12, hd1, hdlen⟩ := h
  have hm1' : 1 ≤ m := hm1
  have hm12' : m ≤ 12 := hm12
  clear hy hm1 hm12 hd1 hdlen
  rw [get_next_month_unfold]
  interval_cases m <;> cases hb : isLeapYear y <;>
    simp [addDays_four, nextDay, daysInMonth, hb, subDays_zero, subDays_one,
      subDays_two, subDays_three, prevDay, firstOfNextMonth]

theorem firstOfNextMonth_valid (d : Date) (h : d.Valid) : (firstOfNextMonth d).Valid := by
  obtain ⟨hy, hm1, hm12, hd1, hdlen⟩ := h
  have h28a := daysInMonth_ge_28 d.year (d.month + 1)
  have h28b := daysInMonth_ge_28 (d.year + 1) 1
  unfold firstOfNextMonth
  split <;> simp only [Date.Valid] <;> omega

theorem toOrdinal_first_of_next_year (y : Nat) :
    toOrdinal ⟨y + 1, 1, 1⟩ = 365 * y + leapCount y + 1 := by
  simp only [toOrdinal]
  norm_num [show ∀ z, daysUpTo z 0 = 0 from fun z => rfl]

theorem toOrdinal_lt_firstOfNextMonth (d : Date) (h : d.Valid) :
    toOrdinal d < toOrdinal (firstOfNextMonth d) := by
  obtain ⟨hy, hm1, hm12, hd1, hdlen⟩ := h
  unfold firstOfNextMonth
  split
  · rename_i hmlt
    obtain ⟨m', hm'⟩ : ∃ m', d.month = m' + 1 := ⟨d.month - 1, by omega⟩
    have hsum : daysUpTo d.year (m' + 1) =
        daysUpTo d.year m' + daysInMonth d.year (m' + 1) := daysUpTo_succ _ _
    rw [hm'] at hdlen
    simp only [toOrdinal, hm', Nat.add_sub_cancel]
    omega
  · rename_i hmge
    have hub := toOrdinal_le_year_bound d ⟨hy, hm1, hm12, hd1, hdlen⟩
    have he := toOrdinal_first_of_next_year d.year
    omega

/-- First day of the year after `d`'s year (the value of
`current.replace(year=current.year + 1, month=1, day=1)`). -/
def firstOfNextYear (d : Date) : Date := ⟨d.year + 1, 1, 1⟩

theorem firstOfNextYear_valid (d : Date) (h : d.Valid) : (firstOfNextYear d).Valid := by
  obtain ⟨hy, _, _, _, _⟩ := h
  have h28 := daysInMonth_ge_28 (d.year + 1) 1
  unfold firstOfNextYear
  simp only [Date.Valid]
  omega

theorem toOrdinal_lt_firstOfNextYear (d : Date) (h : d.Valid) :
    toOrdinal d < toOrdinal (firstOfNextYear d) := by
  have hub := toOrdinal_le_year_bound d h
  have he := toOrdinal_first_of_next_year d.year
  unfold firstOfNextYear
  omega

/-- The three grouping values for which `app.py` runs the planning loop. -/
def GroupValid (g : String) : Prop := g = "Day" ∨ g = "Month" ∨ g = "Year"

instance (g : String) : Decidable (GroupValid g) := by
  unfold GroupValid; infer_instance

theorem get_next_time_interval_spec (d : Date) (g : String)
    (hg : GroupValid g) (h : d.Valid) :
    ∃ n, get_next_time_interval d g = some n ∧ n.Valid ∧
      toOrdinal d < toOrdinal n := by
  rcases hg with rfl | rfl | rfl
  · exact ⟨nextDay d, get_next_day_eq d, nextDay_valid d h, by
      rw [toOrdinal_nextDay d h]; omega⟩
  · exact ⟨firstOfNextMonth d, get_next_month_eq d h, firstOfNextMonth_valid d h,
      toOrdinal_lt_firstOfNextMonth d h⟩
  · exact ⟨firstOfNextYear d, get_next_year_eq d, firstOfNextYear_valid d h,
      toOrdinal_lt_firstOfNextYear d h⟩

example : get_next_time_interval ⟨2024, 1, 15⟩ "Month" = some ⟨2024, 2, 1⟩ := by decide
example : get_next_time_interval ⟨2024, 2, 29⟩ "Month" = some ⟨2024, 3, 1⟩ := by decide
example : get_next_time_interval ⟨2023, 12, 5⟩ "Month" = some ⟨2024, 1, 1⟩ := by decide
example : get_next_time_interval ⟨2023, 6, 30⟩ "Month" = some ⟨2023, 7, 1⟩ := by decide
example : get_next_time_interval ⟨2023, 6, 30⟩ "Year" = some ⟨2024, 1, 1⟩ := by decide
example : get_next_time_interval ⟨2023, 6, 30⟩ "Day" = some ⟨2023, 7, 1⟩ := by decide
example : get_next_time_interval ⟨2023, 6, 30⟩ "None" = none := by decide

/-- `if next_date > end_date: next_date = end_date` (app.py lines 213-214). -/
def clipDate (end_date next_date : Date) : Date :=
  if Date.lt end_date next_date then end_date else next_date

/-- The `while current_date < end_date` planning loop of `app.py`
(lines 211-216), with explicit fuel.  If `get_next_time_interval`
returned `None` (a granularity outside Day/Month/Year) the Python
comparison `next_date > end_date` would raise; that branch is
unreachable for the granularities the "Export Data" handler loops on. -/
def dateRangesLoop (group_by : String) : Nat → Date → Date → List (Date × Date)
  | 0, _, _ => []
  | fuel + 1, current_date, end_date =>
    if Date.lt current_date end_date then
      match get_next_time_interval current_date group_by with
      | some next0 =>
        (current_date, clipDate end_date next0) ::
          dateRangesLoop group_by fuel (clipDate end_date next0) end_date
      | none => []
    else []

/-- `date_ranges` as built by the "Export Data" handler of `app.py`
(lines 206-216) for granularities Day/Month/Year: loop from `START_DATE`
to the exclusive bound `END_DATE + timedelta(days=1)`. -/
def date_ranges (group_by : String) (start_date end_date : Date) : List (Date × Date) :=
  dateRangesLoop group_by
    (toOrdinal (addDays 1 end_date) - toOrdinal start_date)
    start_date (addDays 1 end_date)

/-- The planned interval sequence of one export run: granularity `"None"`
performs a single fetch over `[START_DATE, END_DATE + 1 day)`
(app.py lines 192-199); otherwise the `date_ranges` loop runs. -/
def planExport (group_by : String) (start_date end_date : Date) : List (Date × Date) :=
  if group_by = "None" then [(start_date, addDays 1 end_date)]
  else date_ranges group_by start_date end_date

/-- The value `get_next_time_interval` computes for each planned
granularity, in closed form. -/
def stepFn (g : String) (d : Date) : Date :=
  if g = "Day" then nextDay d
  else if g = "Month" then firstOfNextMonth d
  else firstOfNextYear d

theorem get_next_eq_stepFn (d : Date) (g : String) (hg : GroupValid g)
    (h : d.Valid) : get_next_time_interval d g = some (stepFn g d) := by
  rcases hg with rfl | rfl | rfl
  · exact get_next_day_eq d
  · rw [get_next_month_eq d h]; rfl
  · exact get_next_year_eq d

theorem stepFn_valid (d : Date) (g : String) (hg : GroupValid g) (h : d.Valid) :
    (stepFn g d).Valid := by
  rcases hg with rfl | rfl | rfl
  · exact nextDay_valid d h
  · exact firstOfNextMonth_valid d h
  · exact firstOfNextYear_valid d h

theorem stepFn_toOrdinal_lt (d : Date) (g : String) (hg : GroupValid g) (h : d.Valid) :
    toOrdinal d < toOrdinal (stepFn g d) := by
  rcases hg with rfl | rfl | rfl
  · rw [show stepFn "Day" d = nextDay d from rfl, toOrdinal_nextDay d h]; omega
  · exact toOrdinal_lt_firstOfNextMonth d h
  · exact toOrdinal_lt_firstOfNextYear d h

theorem clipDate_spec (e n c : Date) (he : e.Valid) (hn : n.Valid)
    (hcn : toOrdinal c < toOrdinal n) (hce : toOrdinal c < toOrdinal e) :
    (clipDate e n).Valid ∧ toOrdinal c < toOrdinal (clipDate e n) ∧
      toOrdinal (clipDate e n) ≤ toOrdinal e := by
  unfold clipDate
  split
  · exact ⟨he, hce, Nat.le_refl _⟩
  · rename_i hlt
    have : ¬ (toOrdinal e < toOrdinal n) := fun hc =>
      hlt ((lt_iff_toOrdinal e n he hn).2 hc)
    exact ⟨hn, hcn, by omega⟩

theorem dateRangesLoop_nil (g : String) (fuel : Nat) (c e : Date)
    (h : ¬ Date.lt c e) : dateRangesLoop g fuel c e = [] := by
  cases fuel <;> simp [dateRangesLoop, h]

theorem dateRangesLoop_cons (g : String) (fuel : Nat) (c e n : Date)
    (h : Date.lt c e) (hn : get_next_time_interval c g = some n) :
    dateRangesLoop g (fuel + 1) c e =
      (c, clipDate e n) :: dateRangesLoop g fuel (clipDate e n) e := by
  simp [dateRangesLoop, h, hn]

theorem dateRangesLoop_head (g : String) (fuel : Nat) (c e : Date)
    (q : Date × Date) (rest : List (Date × Date))
    (h : dateRangesLoop g fuel c e = q :: rest) : q.1 = c := by
  cases fuel with
  | zero => simp [dateRangesLoop] at h
  | succ f =>
    unfold dateRangesLoop at h
    split at h
    · split at h
      · injection h with h1 _
        rw [← h1]
      · simp at h
    · simp at h

theorem dateRangesLoop_elem_spec (g : String) (hg : GroupValid g)
    (e : Date) (he : e.Valid) :
    ∀ (fuel : Nat) (c : Date), c.Valid → toOrdinal e - toOrdinal c ≤ fuel →
      ∀ p ∈ dateRangesLoop g fuel c e,
        p.1.Valid ∧ p.2.Valid ∧ toOrdinal p.1 < toOrdinal p.2 ∧
          toOrdinal c ≤ toOrdinal p.1 ∧ toOrdinal p.2 ≤ toOrdinal e := by
  intro fuel
  induction fuel with
  | zero =>
    intro c _ _ p hp
    simp [dateRangesLoop] at hp
  | succ f ih =>
    intro c hc hfuel p hp
    by_cases hlt : Date.lt c e
    · have hn := get_next_eq_stepFn c g hg hc
      have hnv := stepFn_valid c g hg hc
      have hcn := stepFn_toOrdinal_lt c g hg hc
      have hce := (lt_iff_toOrdinal c e hc he).1 hlt
      obtain ⟨hclipv, hclipgt, hcliple⟩ := clipDate_spec e (stepFn g c) c he hnv hcn hce
      rw [dateRangesLoop_cons g f c e (stepFn g c) hlt hn] at hp
      rcases List.mem_cons.1 hp with rfl | hp'
      · exact ⟨hc, hclipv, hclipgt, Nat.le_refl _, hcliple⟩
      · have := ih (clipDate e (stepFn g c)) hclipv (by omega) p hp'
        exact ⟨this.1, this.2.1, this.2.2.1, by omega, this.2.2.2.2⟩
    · rw [dateRangesLoop_nil g _ c e hlt] at hp
      simp at hp

theorem dateRangesLoop_fuel_irrelevant (g : String) (hg : GroupValid g)
    (e : Date) (he : e.Valid) :
    ∀ (fuel : Nat) (c : Date), c.Valid → toOrdinal e - toOrdinal c ≤ fuel →
      ∀ fuel', toOrdinal e - toOrdinal c ≤ fuel' →
        dateRangesLoop g fuel c e = dateRangesLoop g fuel' c e := by
  intro fuel
  induction fuel with
  | zero =>
    intro c hc hfuel fuel' hfuel'
    have hnlt : ¬ Date.lt c e := fun h =>
      by have := (lt_iff_toOrdinal c e hc he).1 h; omega
    rw [dateRangesLoop_nil g _ c e hnlt, dateRangesLoop_nil g _ c e hnlt]
  | succ f ih =>
    intro c hc hfuel fuel' hfuel'
    by_cases hlt : Date.lt c e
    · have hn := get_next_eq_stepFn c g hg hc
      have hnv := stepFn_valid c g hg hc
      have hcn := stepFn_toOrdinal_lt c g hg hc
      have hce := (lt_iff_toOrdinal c e hc he).1 hlt
      obtain ⟨hclipv, hclipgt, hcliple⟩ := clipDate_spec e (stepFn g c) c he hnv hcn hce
      obtain ⟨f', rfl⟩ : ∃ f', fuel' = f' + 1 := ⟨fuel' - 1, by omega⟩
      rw [dateRangesLoop_cons g f c e (stepFn g c) hlt hn,
        dateRangesLoop_cons g f' c e (stepFn g c) hlt hn]
      have h1 := ih (clipDate e (stepFn g c)) hclipv (by omega) f' (by omega)
      rw [h1]
    · rw [dateRangesLoop_nil g _ c e hlt, dateRangesLoop_nil g _ c e hlt]

theorem dateRangesLoop_chain (g : String) (hg : GroupValid g)
    (e : Date) (he : e.Valid) :
    ∀ (fuel : Nat) (c : Date), c.Valid → toOrdinal e - toOrdinal c ≤ fuel →
      List.Chain' (fun p q : Date × Date => p.2 = q.1) (dateRangesLoop g fuel c e) := by
  intro fuel
  induction fuel with
  | zero =>
    intro c _ _
    simp [dateRangesLoop]
  | succ f ih =>
    intro c hc hfuel
    by_cases hlt : Date.lt c e
    · have hn := get_next_eq_stepFn c g hg hc
      have hnv := stepFn_valid c g hg hc
      have hcn := stepFn_toOrdinal_lt c g hg hc
      have hce := (lt_iff_toOrdinal c e hc he).1 hlt
      obtain ⟨hclipv, hclipgt, hcliple⟩ := clipDate_spec e (stepFn g c) c he hnv hcn hce
      rw [dateRangesLoop_cons g f c e (stepFn g c) hlt hn]
      rw [List.chain'_cons']
      refine ⟨?_, ih (clipDate e (stepFn g c)) hclipv (by omega)⟩
      intro q hq
      rcases hrest : dateRangesLoop g f (clipDate e (stepFn g c)) e with _ | ⟨q0, rest0⟩
      · rw [hrest] at hq; simp at hq
      · rw [hrest] at hq
        simp at hq
        rw [← hq]
        exact (dateRangesLoop_head g f _ e q0 rest0 hrest).symm
    · rw [dateRangesLoop_nil g _ c e hlt]
      exact List.chain'_nil

theorem dateRangesLoop_last (g : String) (hg : GroupValid g)
    (e : Date) (he : e.Valid) :
    ∀ (fuel : Nat) (c : Date), c.Valid → toOrdinal e - toOrdinal c ≤ fuel →
      Date.lt c e →
      ∃ pl, (dateRangesLoop g fuel c e).getLast? = some pl ∧ pl.2 = e := by
  intro fuel
  induction fuel with
  | zero =>
    intro c hc hfuel hlt
    have := (lt_iff_toOrdinal c e hc he).1 hlt
    omega
  | succ f ih =>
    intro c hc hfuel hlt
    have hn := get_next_eq_stepFn c g hg hc
    have hnv := stepFn_valid c g hg hc
    have hcn := stepFn_toOrdinal_lt c g hg hc
    have hce := (lt_iff_toOrdinal c e hc he).1 hlt
    obtain ⟨hclipv, hclipgt, hcliple⟩ := clipDate_spec e (stepFn g c) c he hnv hcn hce
    rw [dateRangesLoop_cons g f c e (stepFn g c) hlt hn]
    by_cases hlt2 : Date.lt (clipDate e (stepFn g c)) e
    · obtain ⟨pl, hpl, hple⟩ := ih (clipDate e (stepFn g c)) hclipv (by omega) hlt2
      refine ⟨pl, ?_, hple⟩
      rcases hrest : dateRangesLoop g f (clipDate e (stepFn g c)) e with _ | ⟨q0, rest0⟩
      · rw [hrest] at hpl; simp at hpl
      · rw [hrest] at hpl
        rw [List.getLast?_cons_cons]
        exact hpl
    · have hge : toOrdinal e ≤ toOrdinal (clipDate e (stepFn g c)) := by
        by_contra hcon
        exact hlt2 ((lt_iff_toOrdinal _ e hclipv he).2 (by omega))
      have hcle : toOrdinal (clipDate e (stepFn g c)) = toOrdinal e := by omega
      have heq : clipDate e (stepFn g c) = e := toOrdinal_inj _ e hclipv he hcle
      rw [dateRangesLoop_nil g f _ e hlt2]
      exact ⟨(c, clipDate e (stepFn g c)), rfl, by rw [heq]⟩

theorem Date.lt_irrefl (d : Date) : ¬ Date.lt d d := by
  unfold Date.lt; omega

theorem clipDate_eq_of_next_lt (e n : Date) (hne : clipDate e n ≠ e) :
    clipDate e n = n := by
  unfold clipDate at *
  split at hne
  · exact absurd rfl hne
  · rename_i h
    exact if_neg h

theorem clipDate_day (e c : Date) (hc : c.Valid) (he : e.Valid)
    (hlt : Date.lt c e) : clipDate e (nextDay c) = nextDay c := by
  have hce := (lt_iff_toOrdinal c e hc he).1 hlt
  have hnd := toOrdinal_nextDay c hc
  have hnv := nextDay_valid c hc
  unfold clipDate
  split
  · rename_i h
    have := (lt_iff_toOrdinal e _ he hnv).1 h
    exfalso; omega
  · rfl

theorem dateRangesLoop_day_length (e : Date) (he : e.Valid) :
    ∀ (fuel : Nat) (c : Date), c.Valid → toOrdinal e - toOrdinal c ≤ fuel →
      (dateRangesLoop "Day" fuel c e).length = toOrdinal e - toOrdinal c := by
  intro fuel
  induction fuel with
  | zero =>
    intro c hc hfuel
    have hnlt : ¬ Date.lt c e := fun h => by
      have := (lt_iff_toOrdinal c e hc he).1 h; omega
    rw [dateRangesLoop_nil _ _ _ _ hnlt]
    simp
    omega
  | succ f ih =>
    intro c hc hfuel
    by_cases hlt : Date.lt c e
    · have hce := (lt_iff_toOrdinal c e hc he).1 hlt
      have hclip := clipDate_day e c hc he hlt
      have hnd := toOrdinal_nextDay c hc
      rw [dateRangesLoop_cons "Day" f c e (nextDay c) hlt (get_next_day_eq c), hclip]
      have := ih (nextDay c) (nextDay_valid c hc) (by omega)
      simp [this]
      omega
    · have hce : ¬ toOrdinal c < toOrdinal e := fun h =>
        hlt ((lt_iff_toOrdinal c e hc he).2 h)
      rw [dateRangesLoop_nil _ _ _ _ hlt]
      simp
      omega

theorem dateRangesLoop_day_span (e : Date) (he : e.Valid) :
    ∀ (fuel : Nat) (c : Date), c.Valid → toOrdinal e - toOrdinal c ≤ fuel →
      ∀ p ∈ dateRangesLoop "Day" fuel c e, p.2 = nextDay p.1 := by
  intro fuel
  induction fuel with
  | zero =>
    intro c _ _ p hp
    simp [dateRangesLoop] at hp
  | succ f ih =>
    intro c hc hfuel p hp
    by_cases hlt : Date.lt c e
    · have hce := (lt_iff_toOrdinal c e hc he).1 hlt
      have hclip := clipDate_day e c hc he hlt
      have hnd := toOrdinal_nextDay c hc
      rw [dateRangesLoop_cons "Day" f c e (nextDay c) hlt (get_next_day_eq c), hclip] at hp
      rcases List.mem_cons.1 hp with rfl | hp'
      · rfl
      · exact ih (nextDay c) (nextDay_valid c hc) (by omega) p hp'
    · rw [dateRangesLoop_nil _ _ _ _ hlt] at hp
      simp at hp

theorem stepFn_day_one (g : String) (hg : g = "Month" ∨ g = "Year") (d : Date) :
    (stepFn g d).day = 1 ∧ (g = "Year" → (stepFn g d).month = 1) := by
  rcases hg with rfl | rfl
  · refine ⟨?_, fun h => absurd h (by decide)⟩
    show (firstOfNextMonth d).day = 1
    unfold firstOfNextMonth
    split <;> rfl
  · exact ⟨rfl, fun _ => rfl⟩

theorem dateRangesLoop_tail_aligned (g : String) (hg : GroupValid g)
    (e : Date) (he : e.Valid) :
    ∀ (fuel : Nat) (c : Date), c.Valid → toOrdinal e - toOrdinal c ≤ fuel →
      ∀ p ∈ (dateRangesLoop g fuel c e).tail,
        ∃ d0, d0.Valid ∧ p.1 = stepFn g d0 := by
  intro fuel
  induction fuel with
  | zero =>
    intro c _ _ p hp
    simp [dateRangesLoop] at hp
  | succ f ih =>
    intro c hc hfuel p hp
    by_cases hlt : Date.lt c e
    · have hn := get_next_eq_stepFn c g hg hc
      have hnv := stepFn_valid c g hg hc
      have hcn := stepFn_toOrdinal_lt c g hg hc
      have hce := (lt_iff_toOrdinal c e hc he).1 hlt
      obtain ⟨hclipv, hclipgt, hcliple⟩ := clipDate_spec e (stepFn g c) c he hnv hcn hce
      rw [dateRangesLoop_cons g f c e (stepFn g c) hlt hn] at hp
      simp only [List.tail_cons] at hp
      rcases hrest : dateRangesLoop g f (clipDate e (stepFn g c)) e with _ | ⟨q0, rest0⟩
      · rw [hrest] at hp; simp at hp
      · rw [hrest] at hp
        have hlt2 : Date.lt (clipDate e (stepFn g c)) e := by
          by_contra hcon
          rw [dateRangesLoop_nil g f _ e hcon] at hrest
          simp at hrest
        have hclipne : clipDate e (stepFn g c) ≠ e := fun hcon => by
          rw [hcon] at hlt2
          exact Date.lt_irrefl e hlt2
        have hclipeq : clipDate e (stepFn g c) = stepFn g c :=
          clipDate_eq_of_next_lt e (stepFn g c) hclipne
        rcases List.mem_cons.1 hp with heq | hp'
        · refine ⟨c, hc, ?_⟩
          have hq := dateRangesLoop_head g f _ e q0 rest0 hrest
          rw [heq, hq, hclipeq]
        · have := ih (clipDate e (stepFn g c)) hclipv (by omega) p
          rw [hrest] at this
          simp only [List.tail_cons] at this
          exact this hp'
    · rw [dateRangesLoop_nil g _ c e hlt] at hp
      simp at hp

theorem dateRangesLoop_nonlast_unclipped (g : String) (hg : GroupValid g)
    (e : Date) (he : e.Valid) :
    ∀ (fuel : Nat) (c : Date), c.Valid → toOrdinal e - toOrdinal c ≤ fuel →
      List.Chain' (fun p _ : Date × Date => p.2 = stepFn g p.1)
        (dateRangesLoop g fuel c e) := by
  intro fuel
  induction fuel with
  | zero =>
    intro c _ _
    simp [dateRangesLoop]
  | succ f ih =>
    intro c hc hfuel
    by_cases hlt : Date.lt c e
    · have hn := get_next_eq_stepFn c g hg hc
      have hnv := stepFn_valid c g hg hc
      have hcn := stepFn_toOrdinal_lt c g hg hc
      have hce := (lt_iff_toOrdinal c e hc he).1 hlt
      obtain ⟨hclipv, hclipgt, hcliple⟩ := clipDate_spec e (stepFn g c) c he hnv hcn hce
      rw [dateRangesLoop_cons g f c e (stepFn g c) hlt hn]
      rw [List.chain'_cons']
      refine ⟨?_, ih (clipDate e (stepFn g c)) hclipv (by omega)⟩
      intro q hq
      rcases hrest : dateRangesLoop g f (clipDate e (stepFn g c)) e with _ | ⟨q0, rest0⟩
      · rw [hrest] at hq; simp at hq
      · have hlt2 : Date.lt (clipDate e (stepFn g c)) e := by
          by_contra hcon
          rw [dateRangesLoop_nil g f _ e hcon] at hrest
          simp at hrest
        have hclipne : clipDate e (stepFn g c) ≠ e := fun hcon => by
          rw [hcon] at hlt2
          exact Date.lt_irrefl e hlt2
        show (c, clipDate e (stepFn g c)).2 = stepFn g (c, clipDate e (stepFn g c)).1
        exact clipDate_eq_of_next_lt e (stepFn g c) hclipne
    · rw [dateRangesLoop_nil g _ c e hlt]
      exact List.chain'_nil

theorem chain_head_le (L : List (Date × Date))
    (hchain : List.Chain' (fun p q : Date × Date => p.2 = q.1) L)
    (hpos : ∀ p ∈ L, toOrdinal p.1 < toOrdinal p.2) :
    ∀ ps ∈ L.head?, ∀ q ∈ L, toOrdinal ps.1 ≤ toOrdinal q.1 := by
  induction L with
  | nil => simp
  | cons x rest ih =>
    intro ps hps q hq
    simp only [List.head?_cons, Option.mem_def, Option.some.injEq] at hps
    subst hps
    rcases List.mem_cons.1 hq with rfl | hq'
    · exact Nat.le_refl _
    · rcases rest with _ | ⟨y, rest'⟩
      · simp at hq'
      · have hxy : x.2 = y.1 := (List.chain'_cons.1 hchain).1
        have hchain' := (List.chain'_cons.1 hchain).2
        have hx := hpos x (by simp)
        have hy := ih hchain' (fun p hp => hpos p (List.mem_cons_of_mem _ hp))
          y (by simp) q hq'
        have : toOrdinal x.2 = toOrdinal y.1 := by rw [hxy]
        omega

theorem pairwise_of_chain (L : List (Date × Date))
    (hchain : List.Chain' (fun p q : Date × Date => p.2 = q.1) L)
    (hpos : ∀ p ∈ L, toOrdinal p.1 < toOrdinal p.2) :
    List.Pairwise (fun p q : Date × Date => toOrdinal p.2 ≤ toOrdinal q.1) L := by
  induction L with
  | nil => exact List.Pairwise.nil
  | cons x rest ih =>
    have hchain' : List.Chain' _ rest := hchain.tail
    refine List.Pairwise.cons ?_
      (ih hchain' (fun p hp => hpos p (List.mem_cons_of_mem _ hp)))
    intro q hq
    rcases rest with _ | ⟨y, rest'⟩
    · simp at hq
    · have hxy : x.2 = y.1 := (List.chain'_cons.1 hchain).1
      have hyq := chain_head_le (y :: rest') hchain'
        (fun p hp => hpos p (List.mem_cons_of_mem _ hp)) y (by simp) q hq
      have : toOrdinal x.2 = toOrdinal y.1 := by rw [hxy]
      omega

theorem coverage_of_chain (e : Date) :
    ∀ (rest : List (Date × Date)) (x : Date × Date),
      List.Chain' (fun p q : Date × Date => p.2 = q.1) (x :: rest) →
      (∀ p ∈ x :: rest, toOrdinal p.1 < toOrdinal p.2) →
      (∀ p ∈ x :: rest, toOrdinal p.2 ≤ toOrdinal e) →
      (∃ pl, (x :: rest).getLast? = some pl ∧ pl.2 = e) →
      ∀ t : Nat, (toOrdinal x.1 ≤ t ∧ t < toOrdinal e ↔
        ∃ p ∈ x :: rest, toOrdinal p.1 ≤ t ∧ t < toOrdinal p.2) := by
  intro rest
  induction rest with
  | nil =>
    intro x _ hpos hle hlast t
    obtain ⟨pl, hpl, hple⟩ := hlast
    simp only [List.getLast?_singleton, Option.some.injEq] at hpl
    subst hpl
    constructor
    · rintro ⟨h1, h2⟩
      refine ⟨x, by simp, h1, ?_⟩
      have : toOrdinal x.2 = toOrdinal e := by rw [hple]
      omega
    · rintro ⟨p, hp, hp1, hp2⟩
      simp only [List.mem_singleton] at hp
      subst hp
      have : toOrdinal p.2 = toOrdinal e := by rw [hple]
      omega
  | cons y rest' ih =>
    intro x hchain hpos hle hlast t
    have hxy : x.2 = y.1 := (List.chain'_cons.1 hchain).1
    have hchain' := (List.chain'_cons.1 hchain).2
    have hlast' : ∃ pl, (y :: rest').getLast? = some pl ∧ pl.2 = e := by
      obtain ⟨pl, hpl, hple⟩ := hlast
      rw [List.getLast?_cons_cons] at hpl
      exact ⟨pl, hpl, hple⟩
    have hiy := ih y hchain' (fun p hp => hpos p (List.mem_cons_of_mem _ hp))
      (fun p hp => hle p (List.mem_cons_of_mem _ hp)) hlast' t
    have hx12 := hpos x (by simp)
    have hx2e := hle x (by simp)
    have hxy2 : toOrdinal x.2 = toOrdinal y.1 := by rw [hxy]
    constructor
    · rintro ⟨h1, h2⟩
      by_cases hcase : t < toOrdinal x.2
      · exact ⟨x, by simp, h1, hcase⟩
      · have hy1 : toOrdinal y.1 ≤ t := by omega
        obtain ⟨p, hp, hps⟩ := hiy.1 ⟨hy1, h2⟩
        exact ⟨p, List.mem_cons_of_mem _ hp, hps⟩
    · rintro ⟨p, hp, hp1, hp2⟩
      rcases List.mem_cons.1 hp with rfl | hp'
      · exact ⟨hp1, by omega⟩
      · have h3 := hiy.2 ⟨p, hp', hp1, hp2⟩
        exact ⟨by omega, h3.2⟩

theorem get_mem_tail {α : Type} (L : List α) (x : α) (rest : List α)
    (hL : L = x :: rest) (i : Nat) (h : i < L.length) (h0 : 0 < i) :
    L.get ⟨i, h⟩ ∈ L.tail := by
  subst hL
  obtain ⟨i', rfl⟩ : ∃ i', i = i' + 1 := ⟨i - 1, by omega⟩
  simp only [List.tail_cons]
  have he : (x :: rest).get ⟨i' + 1, h⟩ = rest.get ⟨i', by simpa using h⟩ := rfl
  rw [he]
  exact List.get_mem _ _ _

theorem GroupValid.ne_none {g : String} (hg : GroupValid g) : g ≠ "None" := by
  rcases hg with rfl | rfl | rfl <;> decide

theorem planExport_eq_ranges (g : String) (s e : Date) (hne : g ≠ "None") :
    planExport g s e = date_ranges g s e := if_neg hne

example : planExport "Month" ⟨2024, 1, 30⟩ ⟨2024, 3, 2⟩ =
    [(⟨2024, 1, 30⟩, ⟨2024, 2, 1⟩), (⟨2024, 2, 1⟩, ⟨2024, 3, 1⟩),
     (⟨2024, 3, 1⟩, ⟨2024, 3, 3⟩)] := by decide

example : planExport "Day" ⟨2023, 12, 30⟩ ⟨2024, 1, 1⟩ =
    [(⟨2023, 12, 30⟩, ⟨2023, 12, 31⟩), (⟨2023, 12, 31⟩, ⟨2024, 1, 1⟩),
     (⟨2024, 1, 1⟩, ⟨2024, 1, 2⟩)] := by decide

example : planExport "Year" ⟨2022, 6, 15⟩ ⟨2024, 2, 10⟩ =
    [(⟨2022, 6, 15⟩, ⟨2023, 1, 1⟩), (⟨2023, 1, 1⟩, ⟨2024, 1, 1⟩),
     (⟨2024, 1, 1⟩, ⟨2024, 2, 11⟩)] := by decide

example : planExport "None" ⟨2024, 1, 1⟩ ⟨2024, 1, 1⟩ =
    [(⟨2024, 1, 1⟩, ⟨2024, 1, 2⟩)] := by decide

/-- C1: for every valid start/end with start ≤ end (inclusive) and any
granularity among None/Day/Month/Year, the planned intervals are
contiguous (each interval's end equals the next interval's start),
pairwise non-overlapping, non-empty with no end past `end + 1 day`, and
their union is exactly the half-open range `[start, end + 1 day)`
(stated over Python date ordinals). -/
theorem C1_planner_partition (g : String) (s e : Date)
    (hg : g = "None" ∨ GroupValid g) (hs : s.Valid) (he : e.Valid)
    (hse : Date.le s e) :
    List.Chain' (fun p q : Date × Date => p.2 = q.1) (planExport g s e) ∧
    List.Pairwise (fun p q : Date × Date => toOrdinal p.2 ≤ toOrdinal q.1)
      (planExport g s e) ∧
    (∀ p ∈ planExport g s e, toOrdinal p.1 < toOrdinal p.2 ∧
      toOrdinal p.2 ≤ toOrdinal (addDays 1 e)) ∧
    (∀ t : Nat, (toOrdinal s ≤ t ∧ t < toOrdinal (addDays 1 e)) ↔
      ∃ p ∈ planExport g s e, toOrdinal p.1 ≤ t ∧ t < toOrdinal p.2) := by
  have heE : (addDays 1 e).Valid := addDays_valid 1 e he
  have hordE : toOrdinal (addDays 1 e) = toOrdinal e + 1 := toOrdinal_addDays 1 e he
  have hsle : toOrdinal s ≤ toOrdinal e := (le_iff_toOrdinal s e hs he).1 hse
  rcases hg with rfl | hg'
  · -- granularity "None": a single interval [start, end + 1 day)
    have hplan : planExport "None" s e = [(s, addDays 1 e)] := if_pos rfl
    rw [hplan]
    refine ⟨List.chain'_singleton _, List.pairwise_singleton _ _, ?_, ?_⟩
    · intro p hp
      simp only [List.mem_singleton] at hp
      subst hp
      constructor
      · show toOrdinal s < toOrdinal (addDays 1 e)
        omega
      · exact Nat.le_refl _
    · intro t
      constructor
      · rintro ⟨h1, h2⟩
        exact ⟨(s, addDays 1 e), by simp, h1, h2⟩
      · rintro ⟨p, hp, hp1, hp2⟩
        simp only [List.mem_singleton] at hp
        subst hp
        exact ⟨hp1, hp2⟩
  · -- the planning loop
    rw [planExport_eq_ranges g s e hg'.ne_none]
    unfold date_ranges
    have hfuel : toOrdinal (addDays 1 e) - toOrdinal s ≤
        toOrdinal (addDays 1 e) - toOrdinal s := Nat.le_refl _
    have hchain := dateRangesLoop_chain g hg' (addDays 1 e) heE _ s hs hfuel
    have helem := dateRangesLoop_elem_spec g hg' (addDays 1 e) heE _ s hs hfuel
    have hpos : ∀ p ∈ dateRangesLoop g (toOrdinal (addDays 1 e) - toOrdinal s) s
        (addDays 1 e), toOrdinal p.1 < toOrdinal p.2 :=
      fun p hp => (helem p hp).2.2.1
    refine ⟨hchain, pairwise_of_chain _ hchain hpos, ?_, ?_⟩
    · exact fun p hp => ⟨(helem p hp).2.2.1, (helem p hp).2.2.2.2⟩
    · -- coverage: expose the cons shape of the loop
      have hslt : Date.lt s (addDays 1 e) :=
        (lt_iff_toOrdinal s _ hs heE).2 (by omega)
      obtain ⟨f0, hf0⟩ : ∃ f0, toOrdinal (addDays 1 e) - toOrdinal s = f0 + 1 :=
        ⟨toOrdinal (addDays 1 e) - toOrdinal s - 1, by omega⟩
      have hn := get_next_eq_stepFn s g hg' hs
      have hcons := dateRangesLoop_cons g f0 s (addDays 1 e) (stepFn g s) hslt hn
      have hlast := dateRangesLoop_last g hg' (addDays 1 e) heE _ s hs hfuel hslt
      rw [hf0] at hchain hpos helem hlast ⊢
      rw [hcons] at hchain hpos helem hlast ⊢
      have hcover := coverage_of_chain (addDays 1 e) _ _ hchain hpos
        (fun p hp => (helem p hp).2.2.2.2) hlast
      intro t
      rw [← hcover t]

/-- Witness for C1 at a concrete Month-granularity range crossing a
month boundary. -/
theorem C1_planner_partition_witness :
    List.Chain' (fun p q : Date × Date => p.2 = q.1)
      (planExport "Month" ⟨2024, 1, 30⟩ ⟨2024, 3, 2⟩) :=
  (C1_planner_partition "Month" ⟨2024, 1, 30⟩ ⟨2024, 3, 2⟩
    (Or.inr (by decide)) (by decide) (by decide) (by decide)).1

/-- C6: for granularity Day, the planner emits one interval per calendar
day of the inclusive range (ordinal count `end − start + 1`) and every
interval spans exactly one day, `[d, d + 1 day)`. -/
theorem C6_day_intervals (s e : Date) (hs : s.Valid) (he : e.Valid)
    (_hse : Date.le s e) :
    (planExport "Day" s e).length = toOrdinal e + 1 - toOrdinal s ∧
    ∀ p ∈ planExport "Day" s e, p.2 = nextDay p.1 := by
  have heE : (addDays 1 e).Valid := addDays_valid 1 e he
  have hordE : toOrdinal (addDays 1 e) = toOrdinal e + 1 := toOrdinal_addDays 1 e he
  rw [planExport_eq_ranges "Day" s e (by decide)]
  unfold date_ranges
  constructor
  · rw [dateRangesLoop_day_length (addDays 1 e) heE _ s hs (Nat.le_refl _)]
    omega
  · exact dateRangesLoop_day_span (addDays 1 e) heE _ s hs (Nat.le_refl _)

/-- Witness for C6 on a three-day range crossing a year boundary. -/
theorem C6_day_intervals_witness :
    (planExport "Day" ⟨2023, 12, 30⟩ ⟨2024, 1, 1⟩).length =
      toOrdinal ⟨2024, 1, 1⟩ + 1 - toOrdinal ⟨2023, 12, 30⟩ :=
  (C6_day_intervals ⟨2023, 12, 30⟩ ⟨2024, 1, 1⟩
    (by decide) (by decide) (by decide)).1

/-- A planned interval spanning exactly one whole calendar period for
granularity `g`: it starts on the period's first day and ends on the
first day of the following period. -/
def FullPeriod (g : String) (p : Date × Date) : Prop :=
  p.1.day = 1 ∧ (g = "Year" → p.1.month = 1) ∧
    p.2 = (if g = "Year" then firstOfNextYear p.1 else firstOfNextMonth p.1)

/-- C7: for granularity Month or Year, every interval except possibly the
first and last spans exactly one full calendar month (resp. year); the
first interval starts exactly at `start` and the last ends exactly at
`end + 1 day` (clipped, not extended). -/
theorem C7_month_year_clipping (g : String) (s e : Date)
    (hg : g = "Month" ∨ g = "Year") (hs : s.Valid) (he : e.Valid)
    (hse : Date.le s e) :
    planExport g s e ≠ [] ∧
    (∀ q ∈ (planExport g s e).head?, q.1 = s) ∧
    (∃ pl, (planExport g s e).getLast? = some pl ∧ pl.2 = addDays 1 e) ∧
    (∀ (i : Nat) (h : i < (planExport g s e).length),
      0 < i → i + 1 < (planExport g s e).length →
      FullPeriod g ((planExport g s e).get ⟨i, h⟩)) := by
  have hg' : GroupValid g := by
    rcases hg with rfl | rfl
    · exact Or.inr (Or.inl rfl)
    · exact Or.inr (Or.inr rfl)
  have heE : (addDays 1 e).Valid := addDays_valid 1 e he
  have hordE : toOrdinal (addDays 1 e) = toOrdinal e + 1 := toOrdinal_addDays 1 e he
  have hsle : toOrdinal s ≤ toOrdinal e := (le_iff_toOrdinal s e hs he).1 hse
  have hslt : Date.lt s (addDays 1 e) :=
    (lt_iff_toOrdinal s _ hs heE).2 (by omega)
  rw [planExport_eq_ranges g s e hg'.ne_none]
  unfold date_ranges
  have hfuel : toOrdinal (addDays 1 e) - toOrdinal s ≤
      toOrdinal (addDays 1 e) - toOrdinal s := Nat.le_refl _
  obtain ⟨f0, hf0⟩ : ∃ f0, toOrdinal (addDays 1 e) - toOrdinal s = f0 + 1 :=
    ⟨toOrdinal (addDays 1 e) - toOrdinal s - 1, by omega⟩
  have hn := get_next_eq_stepFn s g hg' hs
  have hcons := dateRangesLoop_cons g f0 s (addDays 1 e) (stepFn g s) hslt hn
  have hlast := dateRangesLoop_last g hg' (addDays 1 e) heE _ s hs hfuel hslt
  have haligned := dateRangesLoop_tail_aligned g hg' (addDays 1 e) heE _ s hs hfuel
  have hunclip := dateRangesLoop_nonlast_unclipped g hg' (addDays 1 e) heE _ s hs hfuel
  refine ⟨?_, ?_, hlast, ?_⟩
  · rw [hf0, hcons]
    simp
  · intro q hq
    rw [hf0, hcons] at hq
    simp only [List.head?_cons, Option.mem_def, Option.some.injEq] at hq
    rw [← hq]
  · intro i h h0 hi1
    have hshape : dateRangesLoop g (toOrdinal (addDays 1 e) - toOrdinal s) s
        (addDays 1 e) =
        (s, clipDate (addDays 1 e) (stepFn g s)) ::
          dateRangesLoop g f0 (clipDate (addDays 1 e) (stepFn g s)) (addDays 1 e) := by
      rw [hf0]; exact hcons
    have hmem := get_mem_tail _ _ _ hshape i h h0
    obtain ⟨d0, hd0v, hd0⟩ := haligned _ hmem
    have hstep := List.chain'_iff_get.1 hunclip i (by omega)
    have hsd := stepFn_day_one g hg d0
    refine ⟨?_, ?_, ?_⟩
    · rw [hd0]; exact hsd.1
    · intro hy; rw [hd0]; exact hsd.2 hy
    · rw [hstep, hd0]
      rcases hg with rfl | rfl
      · simp only [show ("Month" = "Year") = False by simp, if_false]
        rfl
      · simp only [if_true]
        rfl

/-- Witness for C7 at a concrete Month-granularity range with clipped
first and last intervals. -/
theorem C7_month_year_clipping_witness :
    planExport "Month" ⟨2024, 1, 15⟩ ⟨2024, 4, 10⟩ ≠ [] :=
  (C7_month_year_clipping "Month" ⟨2024, 1, 15⟩ ⟨2024, 4, 10⟩
    (Or.inl rfl) (by decide) (by decide) (by decide)).1

/-- C10: for every valid date and granularity Day/Month/Year,
`get_next_time_interval` returns a strictly later date (next day, first
of next month, January 1 of next year respectively); consequently the
planning loop is insensitive to extra fuel beyond the ordinal gap, i.e.
it terminates with a finite interval list. -/
theorem C10_step_strictly_increases (d : Date) (g : String)
    (hg : GroupValid g) (hd : d.Valid) :
    (∃ n, get_next_time_interval d g = some n ∧ Date.lt d n ∧
      (g = "Day" → n = nextDay d) ∧
      (g = "Month" → n = firstOfNextMonth d) ∧
      (g = "Year" → n = firstOfNextYear d)) ∧
    (∀ e : Date, e.Valid → ∀ fuel, toOrdinal e - toOrdinal d ≤ fuel →
      dateRangesLoop g fuel d e =
        dateRangesLoop g (toOrdinal e - toOrdinal d) d e) := by
  constructor
  · refine ⟨stepFn g d, get_next_eq_stepFn d g hg hd, ?_, ?_, ?_, ?_⟩
    · exact (lt_iff_toOrdinal d _ hd (stepFn_valid d g hg hd)).2
        (stepFn_toOrdinal_lt d g hg hd)
    · rintro rfl; rfl
    · rintro rfl; rfl
    · rintro rfl; rfl
  · intro e he fuel hfuel
    exact dateRangesLoop_fuel_irrelevant g hg e he fuel d hd hfuel _ (Nat.le_refl _)

/-- Witness for C10 at February 29 of a leap year with Month granularity. -/
theorem C10_step_strictly_increases_witness :
    ∃ n, get_next_time_interval ⟨2024, 2, 29⟩ "Month" = some n ∧
      Date.lt ⟨2024, 2, 29⟩ n ∧
      ("Month" = "Day" → n = nextDay ⟨2024, 2, 29⟩) ∧
      ("Month" = "Month" → n = firstOfNextMonth ⟨2024, 2, 29⟩) ∧
      ("Month" = "Year" → n = firstOfNextYear ⟨2024, 2, 29⟩) :=
  (C10_step_strictly_increases ⟨2024, 2, 29⟩ "Month"
    (by decide) (by decide)).1

/-! CSV serialization, as performed in `fetch_and_write_data` of both
scripts by `csv.writer(file, delimiter="|", quotechar=chr(34),
quoting=csv.QUOTE_ALL)`: the header row is the column names, data rows
follow in fetched order, every field is quoted, embedded quote
characters are doubled, fields are joined with the pipe delimiter, and
each row ends with the writer's default CRLF terminator. -/

/-- Double every embedded quote character (the QUOTE_ALL escaping rule). -/
def escapeField : List Char → List Char
  | [] => []
  | c :: cs => if c = '"' then '"' :: '"' :: escapeField cs else c :: escapeField cs

/-- One field as written: opening quote, escaped content, closing quote. -/
def quoteField (f : List Char) : List Char := '"' :: (escapeField f ++ ['"'])

/-- The `|`-separated continuation after the first field of a row. -/
def serializeFieldsTail : List (List Char) → List Char
  | [] => []
  | f :: fs => ('|' :: quoteField f) ++ serializeFieldsTail fs

/-- All fields of one row, quoted and joined by the pipe delimiter. -/
def serializeFields : List (List Char) → List Char
  | [] => []
  | f :: fs => quoteField f ++ serializeFieldsTail fs

/-- One `writer.writerow` call: the joined fields plus CRLF. -/
def serializeRow (r : List (List Char)) : List Char :=
  serializeFields r ++ ['\r', '\n']

/-- `writer.writerows(rows)`: each row in supplied order. -/
def serializeRows : List (List (List Char)) → List Char
  | [] => []
  | r :: rs => serializeRow r ++ serializeRows rs

/-- A query result: column names from `cur.description` plus the row
tuples from `cur.fetchall()`, with all values taken as opaque printable
text. -/
structure ResultSet where
  columns : List (List Char)
  rows : List (List (List Char))
deriving DecidableEq

/-- The full in-memory CSV content `fetch_and_write_data` produces:
header row of column names, then the data rows. -/
def serialize (rs : ResultSet) : List Char :=
  serializeRow rs.columns ++ serializeRows rs.rows

/-- Parser for the exact dialect written above, scanning the inside of a
quoted field: `acc` holds the current field reversed, `fs` the finished
fields of the current row reversed.  Returns the row's fields and the
unconsumed remainder. -/
def scanField : List Char → List Char → List (List Char) →
    Option (List (List Char) × List Char)
  | [], _, _ => none
  | c :: cs, acc, fs =>
    if c = '"' then
      match cs with
      | [] => none
      | c2 :: cs2 =>
        if c2 = '"' then scanField cs2 ('"' :: acc) fs
        else if c2 = '|' then
          match cs2 with
          | c3 :: cs3 =>
            if c3 = '"' then scanField cs3 [] (acc.reverse :: fs) else none
          | [] => none
        else if c2 = '\r' then
          match cs2 with
          | c3 :: cs3 =>
            if c3 = '\n' then some ((acc.reverse :: fs).reverse, cs3) else none
          | [] => none
        else none
    else scanField cs (c :: acc) fs

/-- Parse one row: either the bare CRLF of a zero-field row, or a first
opening quote followed by the field scanner. -/
def parseRow : List Char → Option (List (List Char) × List Char)
  | [] => none
  | c :: cs =>
    if c = '\r' then
      match cs with
      | c2 :: cs2 => if c2 = '\n' then some ([], cs2) else none
      | [] => none
    else if c = '"' then scanField cs [] []
    else none

/-- Parse all remaining rows (fuelled; every row consumes at least the
CRLF, so the input length bounds the row count). -/
def parseRowsAux : Nat → List Char → Option (List (List (List Char)))
  | _, [] => some []
  | 0, _ :: _ => none
  | fuel + 1, c :: cs =>
    match parseRow (c :: cs) with
    | none => none
    | some (r, rest) =>
      match parseRowsAux fuel rest with
      | none => none
      | some rs => some (r :: rs)

/-- Parse a whole CSV text back into header plus rows under the same
dialect rules the writer used. -/
def parse (cs : List Char) :
    Option (List (List Char) × List (List (List Char))) :=
  match parseRow cs with
  | none => none
  | some (cols, rest) =>
    match parseRowsAux rest.length rest with
    | none => none
    | some rs => some (cols, rs)

theorem scanField_quote_quote (cs : List Char) (acc : List Char)
    (fs : List (List Char)) :
    scanField ('"' :: '"' :: cs) acc fs = scanField cs ('"' :: acc) fs := by
  rw [scanField.eq_def]
  simp

theorem scanField_quote_pipe (cs : List Char) (acc : List Char)
    (fs : List (List Char)) :
    scanField ('"' :: '|' :: '"' :: cs) acc fs =
      scanField cs [] (acc.reverse :: fs) := by
  rw [scanField.eq_def]
  simp

theorem scanField_quote_crlf (cs : List Char) (acc : List Char)
    (fs : List (List Char)) :
    scanField ('"' :: '\r' :: '\n' :: cs) acc fs =
      some ((acc.reverse :: fs).reverse, cs) := by
  rw [scanField.eq_def]
  simp

theorem scanField_other (c : Char) (hc : ¬ c = '"') (cs : List Char)
    (acc : List Char) (fs : List (List Char)) :
    scanField (c :: cs) acc fs = scanField cs (c :: acc) fs := by
  rw [scanField.eq_def]
  simp [hc]

theorem escapeField_quote (f : List Char) :
    escapeField ('"' :: f) = '"' :: '"' :: escapeField f := by
  rw [escapeField, if_pos rfl]

theorem escapeField_other (c : Char) (hc : ¬ c = '"') (f : List Char) :
    escapeField (c :: f) = c :: escapeField f := by
  rw [escapeField, if_neg hc]

theorem scanField_escape_mid (f : List Char) :
    ∀ (acc : List Char) (fs : List (List Char)) (rest : List Char),
      scanField (escapeField f ++ ('"' :: '|' :: '"' :: rest)) acc fs =
        scanField rest [] ((acc.reverse ++ f) :: fs) := by
  induction f with
  | nil =>
    intro acc fs rest
    rw [show escapeField [] = [] from rfl, List.nil_append, scanField_quote_pipe]
    simp
  | cons c f' ih =>
    intro acc fs rest
    by_cases hc : c = '"'
    · subst hc
      rw [escapeField_quote, List.cons_append, List.cons_append, scanField_quote_quote]
      rw [ih ('"' :: acc) fs rest]
      simp
    · rw [escapeField_other c hc, List.cons_append, scanField_other c hc]
      rw [ih (c :: acc) fs rest]
      simp

theorem scanField_escape_end (f : List Char) :
    ∀ (acc : List Char) (fs : List (List Char)) (rest : List Char),
      scanField (escapeField f ++ ('"' :: '\r' :: '\n' :: rest)) acc fs =
        some ((((acc.reverse ++ f) :: fs)).reverse, rest) := by
  induction f with
  | nil =>
    intro acc fs rest
    rw [show escapeField [] = [] from rfl, List.nil_append, scanField_quote_crlf]
    simp
  | cons c f' ih =>
    intro acc fs rest
    by_cases hc : c = '"'
    · subst hc
      rw [escapeField_quote, List.cons_append, List.cons_append, scanField_quote_quote]
      rw [ih ('"' :: acc) fs rest]
      simp
    · rw [escapeField_other c hc, List.cons_append, scanField_other c hc]
      rw [ih (c :: acc) fs rest]
      simp

theorem scanField_serialized (fs0 : List (List Char)) :
    ∀ (f : List Char) (acc : List Char) (fsAcc : List (List Char)) (rest : List Char),
      scanField (escapeField f ++
          ('"' :: (serializeFieldsTail fs0 ++ ('\r' :: '\n' :: rest)))) acc fsAcc =
        some (fsAcc.reverse ++ ((acc.reverse ++ f) :: fs0), rest) := by
  induction fs0 with
  | nil =>
    intro f acc fsAcc rest
    rw [show serializeFieldsTail [] = [] from rfl, List.nil_append]
    rw [scanField_escape_end f acc fsAcc rest]
    simp
  | cons g gs ih =>
    intro f acc fsAcc rest
    have hshape : serializeFieldsTail (g :: gs) ++ ('\r' :: '\n' :: rest) =
        '|' :: '"' :: (escapeField g ++
          ('"' :: (serializeFieldsTail gs ++ ('\r' :: '\n' :: rest)))) := by
      simp [serializeFieldsTail, quoteField]
    rw [hshape]
    rw [scanField_escape_mid f acc fsAcc _]
    rw [ih g [] ((acc.reverse ++ f) :: fsAcc) rest]
    simp

theorem parseRow_quote (cs : List Char) :
    parseRow ('"' :: cs) = scanField cs [] [] := rfl

theorem parseRow_crlf (cs : List Char) :
    parseRow ('\r' :: '\n' :: cs) = some ([], cs) := rfl

theorem parseRow_serialized (r : List (List Char)) (rest : List Char) :
    parseRow (serializeRow r ++ rest) = some (r, rest) := by
  cases r with
  | nil =>
    rw [show serializeRow [] = ['\r', '\n'] from rfl]
    rw [show (['\r', '\n'] : List Char) ++ rest = '\r' :: '\n' :: rest by simp]
    exact parseRow_crlf rest
  | cons f fs =>
    have hshape : serializeRow (f :: fs) ++ rest =
        '"' :: (escapeField f ++
          ('"' :: (serializeFieldsTail fs ++ ('\r' :: '\n' :: rest)))) := by
      simp [serializeRow, serializeFields, quoteField]
    rw [hshape, parseRow_quote]
    rw [scanField_serialized fs f [] [] rest]
    simp

theorem serializeRows_length_ge (rows : List (List (List Char))) :
    rows.length ≤ (serializeRows rows).length := by
  induction rows with
  | nil => simp [serializeRows]
  | cons r rs ih =>
    simp only [serializeRows, serializeRow, List.length_cons, List.length_append]
    simp at *
    omega

theorem parseRowsAux_serialized (rows : List (List (List Char))) :
    ∀ fuel, rows.length ≤ fuel →
      parseRowsAux fuel (serializeRows rows) = some rows := by
  induction rows with
  | nil => intro fuel _; cases fuel <;> rfl
  | cons r rs ih =>
    intro fuel hfuel
    obtain ⟨f, rfl⟩ : ∃ f, fuel = f + 1 := ⟨fuel - 1, by simp at hfuel; omega⟩
    have hne : serializeRows (r :: rs) ≠ [] := by
      simp [serializeRows, serializeRow]
    rcases hX : serializeRows (r :: rs) with _ | ⟨c, cs'⟩
    · exact absurd hX hne
    · simp only [parseRowsAux]
      rw [← hX]
      rw [show serializeRows (r :: rs) = serializeRow r ++ serializeRows rs from rfl]
      rw [parseRow_serialized r (serializeRows rs)]
      simp [ih f (by simp at hfuel; omega)]

/-- Round-trip: parsing the serializer's output recovers the columns and
rows exactly. -/
theorem parse_serialize (rs : ResultSet) :
    parse (serialize rs) = some (rs.columns, rs.rows) := by
  unfold parse serialize
  rw [parseRow_serialized rs.columns (serializeRows rs.rows)]
  simp [parseRowsAux_serialized rs.rows _ (serializeRows_length_ge rs.rows)]

example : serialize ⟨[['i', 'd'], ['v']], [[['1'], ['a', '|', 'b']], [['2'], ['s', '"', 'q']]]⟩ =
    ('"' :: 'i' :: 'd' :: '"' :: '|' :: '"' :: 'v' :: '"' :: '\r' :: '\n' ::
     '"' :: '1' :: '"' :: '|' :: '"' :: 'a' :: '|' :: 'b' :: '"' :: '\r' :: '\n' ::
     '"' :: '2' :: '"' :: '|' :: '"' :: 's' :: '"' :: '"' :: 'q' :: '"' :: '\r' :: '\n' :: []) := by
  decide

example : parse (serialize ⟨[['c']], [[['x', '"', 'y']], [['\r', '\n']]]⟩) =
    some ([['c']], [[['x', '"', 'y']], [['\r', '\n']]]) := by decide

/-- C2: the CSV serializer is deterministic, and re-parsing its output
with the same dialect rules (pipe delimiter, all fields quoted, quotes
doubled, header first, rows in supplied order) reconstructs the original
`ResultSet` exactly. -/
theorem C2_csv_round_trip (rs : ResultSet) :
    serialize rs = serialize rs ∧ parse (serialize rs) = some (rs.columns, rs.rows) :=
  ⟨rfl, parse_serialize rs⟩

/-- Zero-pad to two digits: strftime `%m` / `%d`. -/
def pad2 (n : Nat) : String := if n < 10 then "0" ++ toString n else toString n

/-- Zero-pad to four digits: strftime `%Y` per CPython's documented
behaviour for `date.strftime`. -/
def pad4 (n : Nat) : String :=
  if n < 10 then "000" ++ toString n
  else if n < 100 then "00" ++ toString n
  else if n < 1000 then "0" ++ toString n
  else toString n

/-- `d.strftime("%Y_%m_%d")`. -/
def strftime_Y_m_d (d : Date) : String :=
  pad4 d.year ++ "_" ++ pad2 d.month ++ "_" ++ pad2 d.day

/-- `d.strftime("%Y_%m")`. -/
def strftime_Y_m (d : Date) : String := pad4 d.year ++ "_" ++ pad2 d.month

/-- `d.strftime("%Y")`. -/
def strftime_Y (d : Date) : String := pad4 d.year

/-- `d.strftime("%Y-%m-%d")`, used for the SQL date bounds. -/
def strftime_iso (d : Date) : String :=
  pad4 d.year ++ "-" ++ pad2 d.month ++ "-" ++ pad2 d.day

/-- The `formatted_date` expression of `parallel_fetch`
(app.py lines 152-156): `Day` and `Month` are tested explicitly, any
other granularity falls through to `%Y`. -/
def formatted_date (group_by : String) (start : Date) : String :=
  if group_by = "Day" then strftime_Y_m_d start
  else if group_by = "Month" then strftime_Y_m start
  else strftime_Y start

/-- The artifact name of one grouped unit (app.py line 157). -/
def unit_file_name (pfx group_by : String) (start : Date) : String :=
  pfx ++ "_" ++ formatted_date group_by start ++ ".csv"

/-- The artifact name as produced by the "Export Data" handler:
`{FILENAME_PREFIX}_full.csv` for granularity "None" (app.py line 201),
otherwise the grouped name from `parallel_fetch`. -/
def export_file_name (pfx group_by : String) (start : Date) : String :=
  if group_by = "None" then pfx ++ "_full.csv"
  else unit_file_name pfx group_by start

/-- C5: artifact names are a deterministic function of the prefix, the
granularity, and the interval start: `None` → `{prefix}_full`, `Day` →
`{prefix}_{YYYY_MM_DD}`, `Month` → `{prefix}_{YYYY_MM}`, `Year` →
`{prefix}_{YYYY}`, each suffixed with `.csv`. -/
theorem C5_artifact_naming (pfx : String) (d : Date) :
    export_file_name pfx "None" d = pfx ++ "_full" ++ ".csv" ∧
    export_file_name pfx "Day" d =
      pfx ++ "_" ++ (pad4 d.year ++ "_" ++ pad2 d.month ++ "_" ++ pad2 d.day) ++ ".csv" ∧
    export_file_name pfx "Month" d =
      pfx ++ "_" ++ (pad4 d.year ++ "_" ++ pad2 d.month) ++ ".csv" ∧
    export_file_name pfx "Year" d = pfx ++ "_" ++ pad4 d.year ++ ".csv" := by
  refine ⟨?_, rfl, rfl, rfl⟩
  show pfx ++ "_full.csv" = pfx ++ "_full" ++ ".csv"
  rw [String.append_assoc, show "_full" ++ ".csv" = "_full.csv" from by decide]

example : export_file_name "exported_data" "Day" ⟨2024, 3, 5⟩ =
    "exported_data_2024_03_05.csv" := by decide
example : export_file_name "exported_data" "Month" ⟨2024, 3, 5⟩ =
    "exported_data_2024_03.csv" := by decide
example : export_file_name "exported_data" "Year" ⟨2024, 3, 5⟩ =
    "exported_data_2024.csv" := by decide
example : export_file_name "exported_data" "None" ⟨2024, 3, 5⟩ =
    "exported_data_full.csv" := by decide

/-- A single-quote character, built by code point to keep the SQL
literal quoting explicit. -/
def sqlQuote : String := String.mk [Char.ofNat 39]

/-- The SQL text built by `fetch_and_write_data` in `app.py`
(lines 102-106): bounds formatted `%Y-%m-%d`, explicit `::DATE` casts,
half-open comparison `>= start AND < end`. -/
def buildQuery (table_name date_column_name : String) (start end_ : Date) : String :=
  "SELECT * FROM " ++ table_name ++ " WHERE " ++ date_column_name ++
    "::DATE >= " ++ sqlQuote ++ strftime_iso start ++ sqlQuote ++ "::DATE AND " ++
    date_column_name ++ "::DATE < " ++ sqlQuote ++ strftime_iso end_ ++ sqlQuote ++ "::DATE"

/-- `fetch_and_write_data` of `app.py` (lines 91-131): build the query,
format it (via the external `sqlparse.format`, abstracted as a
parameter), execute and fetch over the shared connection (abstracted as
`execQuery`, with `none` standing for a raised exception), and serialize
the rows; the `except` branch catches any exception and returns
`(None, None)`, modelled as `none`. -/
def fetch_and_write_data (execQuery : String → Option ResultSet)
    (formatSql : String → String) (start end_ : Date)
    (table_name date_column_name : String) : Option (List Char × String) :=
  let query := buildQuery table_name date_column_name start end_
  let formatted_query := formatSql query
  match execQuery query with
  | some rs => some (serialize rs, formatted_query)
  | none => none

/-- The per-future values the `as_completed` loop of `parallel_fetch`
receives (app.py lines 143-150), in completion order: each future
resolves to its interval plus the fetch result — `fetch_and_write_data`
never raises, so there is exactly one such value per submitted interval. -/
def parallel_fetch_outcomes (execQuery : String → Option ResultSet)
    (formatSql : String → String) (completion_order : List (Date × Date))
    (table_name date_column_name : String) :
    List (Date × Date × Option (List Char × String)) :=
  completion_order.map fun r =>
    (r.1, r.2, fetch_and_write_data execQuery formatSql r.1 r.2 table_name date_column_name)

/-- The collection loop of `parallel_fetch` (app.py lines 149-162) over
the completed futures: appends `(file_name, csv_content)` for every
truthy `csv_content` and advances the progress bar once per future.
Returns `memory_files` together with the number of progress updates. -/
def parallel_fetch_collect (group_by pfx : String) :
    List (Date × Date × Option (List Char × String)) →
    List (String × List Char) × Nat
  | [] => ([], 0)
  | (start, _, res) :: rest =>
    let tail := parallel_fetch_collect group_by pfx rest
    match res with
    | some (csv_content, _) =>
      if csv_content = [] then (tail.1, tail.2 + 1)
      else ((unit_file_name pfx group_by start, csv_content) :: tail.1, tail.2 + 1)
    | none => (tail.1, tail.2 + 1)

/-- `parallel_fetch` (app.py lines 133-164): its return value is
`memory_files` — only the successful units' artifacts. -/
def parallel_fetch (execQuery : String → Option ResultSet)
    (formatSql : String → String) (completion_order : List (Date × Date))
    (table_name date_column_name group_by pfx : String) :
    List (String × List Char) :=
  (parallel_fetch_collect group_by pfx
    (parallel_fetch_outcomes execQuery formatSql completion_order
      table_name date_column_name)).1

/-- Number of `progress_bar.progress` updates in one `parallel_fetch`
run (app.py line 162). -/
def progress_updates (execQuery : String → Option ResultSet)
    (formatSql : String → String) (completion_order : List (Date × Date))
    (table_name date_column_name group_by pfx : String) : Nat :=
  (parallel_fetch_collect group_by pfx
    (parallel_fetch_outcomes execQuery formatSql completion_order
      table_name date_column_name)).2

/-- Bool test for a unit outcome the loop treats as a success. -/
def outcome_success (o : Date × Date × Option (List Char × String)) : Bool :=
  match o.2.2 with
  | some p => decide (p.1 ≠ [])
  | none => false

theorem parallel_fetch_collect_spec (group_by pfx : String) :
    ∀ outs : List (Date × Date × Option (List Char × String)),
      (parallel_fetch_collect group_by pfx outs).2 = outs.length ∧
      (parallel_fetch_collect group_by pfx outs).1.length =
        outs.countP outcome_success := by
  intro outs
  induction outs with
  | nil => exact ⟨rfl, rfl⟩
  | cons o rest ih =>
    obtain ⟨start, end_, res⟩ := o
    rcases res with _ | ⟨content, q⟩
    · simp only [parallel_fetch_collect, List.countP_cons, outcome_success]
      simp [ih.1, ih.2]
    · by_cases hc : content = []
      · subst hc
        simp only [parallel_fetch_collect, List.countP_cons, outcome_success]
        simp [ih.1, ih.2]
      · simp only [parallel_fetch_collect, List.countP_cons, outcome_success]
        simp [ih.1, ih.2, hc]

/-- Counterexample to C3 as stated: `parallel_fetch` *returns* only the
successful units' artifacts, so with two intervals and one failing
fetch it returns one entry, not two. -/
theorem C3_returned_outcomes_counterexample :
    (parallel_fetch
        (fun q => if q = buildQuery "T" "D" ⟨2024, 1, 1⟩ ⟨2024, 1, 2⟩ then none
          else some ⟨[['a']], []⟩)
        (fun q => q)
        [(⟨2024, 1, 1⟩, ⟨2024, 1, 2⟩), (⟨2024, 1, 2⟩, ⟨2024, 1, 3⟩)]
        "T" "D" "Day" "x").length = 1 ∧
    ([(⟨2024, 1, 1⟩, ⟨2024, 1, 2⟩), (⟨2024, 1, 2⟩, ⟨2024, 1, 3⟩)] :
        List (Date × Date)).length = 2 := by
  decide

/-- C3 (amended): the `as_completed` loop receives exactly one completed
outcome per submitted interval — the outcome stream has length N and the
progress bar is updated N times regardless of how many units fail —
while the list `parallel_fetch` returns has exactly one entry per
*successful* unit. -/
theorem C3_outcomes_per_interval (execQuery : String → Option ResultSet)
    (formatSql : String → String)
    (date_ranges0 completion_order : List (Date × Date))
    (table_name date_column_name group_by pfx : String)
    (hperm : completion_order.Perm date_ranges0) :
    (parallel_fetch_outcomes execQuery formatSql completion_order
        table_name date_column_name).length = date_ranges0.length ∧
    progress_updates execQuery formatSql completion_order
        table_name date_column_name group_by pfx = date_ranges0.length ∧
    (parallel_fetch execQuery formatSql completion_order
        table_name date_column_name group_by pfx).length =
      (parallel_fetch_outcomes execQuery formatSql completion_order
        table_name date_column_name).countP outcome_success := by
  have hlen := hperm.length_eq
  have hspec := parallel_fetch_collect_spec group_by pfx
    (parallel_fetch_outcomes execQuery formatSql completion_order
      table_name date_column_name)
  refine ⟨?_, ?_, hspec.2⟩
  · simp [parallel_fetch_outcomes, hlen]
  · unfold progress_updates
    rw [hspec.1]
    simp [parallel_fetch_outcomes, hlen]

/-- Witness for the amended C3 with a completion order that differs from
submission order and an always-failing fetch. -/
theorem C3_outcomes_per_interval_witness :
    (parallel_fetch_outcomes (fun _ => none) (fun q => q)
        [(⟨2024, 1, 2⟩, ⟨2024, 1, 3⟩), (⟨2024, 1, 1⟩, ⟨2024, 1, 2⟩)]
        "T" "D").length =
      ([(⟨2024, 1, 1⟩, ⟨2024, 1, 2⟩), (⟨2024, 1, 2⟩, ⟨2024, 1, 3⟩)] :
        List (Date × Date)).length :=
  (C3_outcomes_per_interval (fun _ => none) (fun q => q)
    [(⟨2024, 1, 1⟩, ⟨2024, 1, 2⟩), (⟨2024, 1, 2⟩, ⟨2024, 1, 3⟩)]
    [(⟨2024, 1, 2⟩, ⟨2024, 1, 3⟩), (⟨2024, 1, 1⟩, ⟨2024, 1, 2⟩)]
    "T" "D" "Day" "x" (by decide)).1

/-- C4: a unit's fetch failure is returned as a value (`none`, the
`(None, None)` of the `except` branch — never re-raised), appears as
that unit's outcome in the completion stream, leaves the outcome of
every unit with a different query unchanged, and the run still
processes all N units (progress reaches N) instead of aborting. -/
theorem C4_failure_isolation
    (execQuery execQuery' : String → Option ResultSet) (formatSql : String → String)
    (completion_order : List (Date × Date))
    (table_name date_column_name group_by pfx : String) (r : Date × Date)
    (hfail : execQuery' (buildQuery table_name date_column_name r.1 r.2) = none)
    (hagree : ∀ q, q ≠ buildQuery table_name date_column_name r.1 r.2 →
      execQuery' q = execQuery q)
    (hmem : r ∈ completion_order) :
    fetch_and_write_data execQuery' formatSql r.1 r.2 table_name date_column_name =
      none ∧
    (r.1, r.2, (none : Option (List Char × String))) ∈
      parallel_fetch_outcomes execQuery' formatSql completion_order
        table_name date_column_name ∧
    (∀ r' : Date × Date,
      buildQuery table_name date_column_name r'.1 r'.2 ≠
        buildQuery table_name date_column_name r.1 r.2 →
      fetch_and_write_data execQuery' formatSql r'.1 r'.2 table_name date_column_name =
        fetch_and_write_data execQuery formatSql r'.1 r'.2 table_name date_column_name) ∧
    progress_updates execQuery' formatSql completion_order table_name date_column_name
        group_by pfx = completion_order.length := by
  have h1 : fetch_and_write_data execQuery' formatSql r.1 r.2
      table_name date_column_name = none := by
    simp only [fetch_and_write_data]
    rw [hfail]
  refine ⟨h1, ?_, ?_, ?_⟩
  · unfold parallel_fetch_outcomes
    refine List.mem_map.2 ⟨r, hmem, ?_⟩
    rw [h1]
  · intro r' hne
    simp only [fetch_and_write_data]
    rw [hagree _ hne]
  · have := (parallel_fetch_collect_spec group_by pfx
      (parallel_fetch_outcomes execQuery' formatSql completion_order
        table_name date_column_name)).1
    unfold progress_updates
    rw [this]
    simp [parallel_fetch_outcomes]

/-- Witness for C4: a run of two day-units where exactly the first
unit's query fails. -/
theorem C4_failure_isolation_witness :
    fetch_and_write_data
        (fun q => if q = buildQuery "T" "D" ⟨2024, 1, 1⟩ ⟨2024, 1, 2⟩ then none
          else some ⟨[['a']], []⟩)
        (fun q => q) ⟨2024, 1, 1⟩ ⟨2024, 1, 2⟩ "T" "D" = none :=
  (C4_failure_isolation
    (fun _ => some ⟨[['a']], []⟩)
    (fun q => if q = buildQuery "T" "D" ⟨2024, 1, 1⟩ ⟨2024, 1, 2⟩ then none
      else some ⟨[['a']], []⟩)
    (fun q => q)
    [(⟨2024, 1, 1⟩, ⟨2024, 1, 2⟩), (⟨2024, 1, 2⟩, ⟨2024, 1, 3⟩)]
    "T" "D" "Day" "x" (⟨2024, 1, 1⟩, ⟨2024, 1, 2⟩)
    (by simp) (fun q hq => if_neg hq) (by decide)).1

theorem foldl_append_id (l : List (String × List Char)) :
    ∀ acc, l.foldl (fun a fd => a ++ [fd]) acc = acc ++ l := by
  induction l with
  | nil => intro acc; simp
  | cons x xs ih => intro acc; simp [ih]

/-- The ZIP bundling block of `app.py` (lines 220-232), modelled at the
archive-entry level: when `memory_files` is empty the `if memory_files:`
guard skips bundling entirely (no archive); otherwise every
`(file_name, data)` pair is written by `zip_file.writestr` as one entry
carrying the name and the bytes verbatim. -/
def bundleZip (memory_files : List (String × List Char)) :
    Option (List (String × List Char)) :=
  if memory_files = [] then none
  else some (memory_files.foldl (fun acc fd => acc ++ [fd]) [])

/-- C8: bundling the artifact list produces no archive when it is empty,
and otherwise an archive whose entries are exactly the artifacts — one
entry per artifact, keyed by its name, bytes identical. -/
theorem C8_zip_bundling (memory_files : List (String × List Char)) :
    bundleZip memory_files =
      if memory_files = [] then none else some memory_files := by
  unfold bundleZip
  rw [foldl_append_id memory_files []]
  simp

example : bundleZip [] = none := by decide
example : bundleZip [("a.csv", ['x']), ("b.csv", ['y'])] =
    some [("a.csv", ['x']), ("b.csv", ['y'])] := by decide

example : nextDay ⟨2024, 2, 28⟩ = ⟨2024, 2, 29⟩ := by decide
example : nextDay ⟨2023, 2, 28⟩ = ⟨2023, 3, 1⟩ := by decide
example : nextDay ⟨2023, 12, 31⟩ = ⟨2024, 1, 1⟩ := by decide
example : addDays 4 ⟨2023, 2, 28⟩ = ⟨2023, 3, 4⟩ := by decide
example : subDays 3 ⟨2023, 3, 4⟩ = ⟨2023, 3, 1⟩ := by decide

example : toOrdinal ⟨1, 1, 1⟩ = 1 := by decide
example : toOrdinal ⟨2024, 3, 1⟩ = 738946 := by decide
example : isLeapYear 2024 = true := by decide
example : isLeapYear 1900 = false := by decide
example : isLeapYear 2000 = true := by decide

end SnowflakeExport
